import Mathlib

/-!
Verification development for the dhtnet connection-manager core.

The C++ sources embedded here are `include/connectionmanager.h` and
`src/ice_transport.h`.  Byte strings (`std::string`) are modelled as
`List Nat` of byte values; the msgpack-c wire conventions used by the
`MSGPACK_DEFINE` / `MSGPACK_DEFINE_MAP` macros are modelled by an explicit
encoder over a small value universe.
-/

namespace Dhtnet

/-- A byte string: the model of `std::string` contents. -/
abbrev Bytes := List Nat

/-- Universe of msgpack values needed by the wire structures:
unsigned integers, raw strings, booleans, arrays and string-keyed maps. -/
inductive MsgVal : Type where
  | uint (n : Nat)
  | str (s : Bytes)
  | boolean (b : Bool)
  | arr (l : List MsgVal)
  | map (l : List (Bytes × MsgVal))

/-- msgpack header for a raw string of the given byte length
(fixstr, str8, str16 or str32). -/
def strHeader (n : Nat) : Bytes :=
  if n ≤ 31 then [0xa0 + n]
  else if n < 256 then [0xd9, n]
  else if n < 65536 then [0xda, n / 256, n % 256]
  else [0xdb, n / 16777216 % 256, n / 65536 % 256, n / 256 % 256, n % 256]

/-- msgpack encoding of a raw string: header followed by the bytes. -/
def encStr (s : Bytes) : Bytes := strHeader s.length ++ s

/-- msgpack header for an array of the given element count. -/
def arrHeader (n : Nat) : Bytes :=
  if n ≤ 15 then [0x90 + n]
  else if n < 65536 then [0xdc, n / 256, n % 256]
  else [0xdd, n / 16777216 % 256, n / 65536 % 256, n / 256 % 256, n % 256]

/-- msgpack header for a map of the given entry count. -/
def mapHeader (n : Nat) : Bytes :=
  if n ≤ 15 then [0x80 + n]
  else if n < 65536 then [0xde, n / 256, n % 256]
  else [0xdf, n / 16777216 % 256, n / 65536 % 256, n / 256 % 256, n % 256]

/-- msgpack encoding of an unsigned integer (positive fixint or uint8/16/32/64). -/
def encUint (n : Nat) : Bytes :=
  if n < 128 then [n]
  else if n < 256 then [0xcc, n]
  else if n < 65536 then [0xcd, n / 256, n % 256]
  else if n < 4294967296 then
    [0xce, n / 16777216 % 256, n / 65536 % 256, n / 256 % 256, n % 256]
  else
    [0xcf, n / 72057594037927936 % 256, n / 281474976710656 % 256,
     n / 1099511627776 % 256, n / 4294967296 % 256,
     n / 16777216 % 256, n / 65536 % 256, n / 256 % 256, n % 256]

/-- msgpack encoding of a boolean. -/
def encBool (b : Bool) : Bytes := [if b then 0xc3 else 0xc2]

mutual

/-- Full msgpack encoder over the value universe. -/
def encodeVal : MsgVal → Bytes
  | .uint n => encUint n
  | .str s => encStr s
  | .boolean b => encBool b
  | .arr l => arrHeader l.length ++ encodeArr l
  | .map l => mapHeader l.length ++ encodeMap l

/-- Encoder for the elements of an array, in order. -/
def encodeArr : List MsgVal → Bytes
  | [] => []
  | v :: vs => encodeVal v ++ encodeArr vs

/-- Encoder for the entries of a map: each key as a string, then the value. -/
def encodeMap : List (Bytes × MsgVal) → Bytes
  | [] => []
  | kv :: kvs => encStr kv.1 ++ encodeVal kv.2 ++ encodeMap kvs

end

/-- The `SDP` wire structure of `ice_transport.h`:
`ufrag`, `pwd` and the candidate lines, one standard ICE text line each. -/
structure SDP : Type where
  ufrag : Bytes
  pwd : Bytes
  candidates : List Bytes
deriving DecidableEq

/-- `MSGPACK_DEFINE(ufrag, pwd, candidates)` of `ice_transport.h` line 69:
msgpack-c serializes the listed fields as a positional array, in order. -/
def SDP.packed (s : SDP) : MsgVal :=
  .arr [.str s.ufrag, .str s.pwd, .arr (s.candidates.map .str)]

/-- Byte-level serialization of an `SDP` value, as produced by
`msgpack::pack` on the structure. -/
def SDP.encode (s : SDP) : Bytes := encodeVal s.packed

/-- `dht::Value::INVALID_ID`: the distinguished invalid request identifier. -/
def INVALID_ID : Nat := 0

/-- The `PeerConnectionRequest` wire structure of `connectionmanager.h`
lines 49-58, with its default member initializers. -/
structure PeerConnectionRequest : Type where
  id : Nat := INVALID_ID
  ice_msg : Bytes := []
  isAnswer : Bool := false
  connType : Bytes := []
deriving DecidableEq

/-- A default-constructed `PeerConnectionRequest`. -/
def defaultRequest : PeerConnectionRequest := {}

/-- Byte string of the field name `id`. -/
def idKey : Bytes := [105, 100]

/-- Byte string of the field name `ice_msg`. -/
def iceMsgKey : Bytes := [105, 99, 101, 95, 109, 115, 103]

/-- Byte string of the field name `isAnswer`. -/
def isAnswerKey : Bytes := [105, 115, 65, 110, 115, 119, 101, 114]

/-- Byte string of the field name `connType`. -/
def connTypeKey : Bytes := [99, 111, 110, 110, 84, 121, 112, 101]

/-- `MSGPACK_DEFINE_MAP(id, ice_msg, isAnswer, connType)` of
`connectionmanager.h` line 57: msgpack-c serializes the listed fields as a
map keyed by the stringified field names, in declaration order. -/
def PeerConnectionRequest.packed (p : PeerConnectionRequest) : MsgVal :=
  .map [(idKey, .uint p.id), (iceMsgKey, .str p.ice_msg),
        (isAnswerKey, .boolean p.isAnswer), (connTypeKey, .str p.connType)]

/-- Byte-level serialization of a `PeerConnectionRequest`. -/
def PeerConnectionRequest.encode (p : PeerConnectionRequest) : Bytes :=
  encodeVal p.packed

/-- The key names of a msgpack map value, in order; `none` when the value
is not a map. -/
def mapKeys : MsgVal → Option (List Bytes)
  | .map l => some (l.map Prod.fst)
  | _ => none

/-- `key_prefix = "peer:"` of `connectionmanager.h` line 52, as bytes. -/
def peerKeyBase : Bytes := [112, 101, 101, 114, 58]

/-- Modelled from the spec: the DHT listen/put key computation is in the
implementation file, absent from the sources; section 6 states the key is
the byte string `peer:` concatenated with the 20-byte infohash of the
recipient device public key. -/
def dhtListenKey (infohash : Bytes) : Bytes := peerKeyBase ++ infohash

/-- Decode a msgpack string header: returns the announced byte length and
the remaining input. -/
def decStrHeader : Bytes → Option (Nat × Bytes)
  | [] => none
  | b :: rest =>
    if 0xa0 ≤ b ∧ b ≤ 0xbf then some (b - 0xa0, rest)
    else if b = 0xd9 then
      match rest with
      | n :: r => some (n, r)
      | [] => none
    else if b = 0xda then
      match rest with
      | h :: lo :: r => some (h * 256 + lo, r)
      | _ => none
    else if b = 0xdb then
      match rest with
      | h3 :: h2 :: h1 :: h0 :: r =>
        some (((h3 * 256 + h2) * 256 + h1) * 256 + h0, r)
      | _ => none
    else none

/-- Decode one msgpack string: header, then that many raw bytes. -/
def decStr (l : Bytes) : Option (Bytes × Bytes) :=
  match decStrHeader l with
  | some (n, rest) => if n ≤ rest.length then some (rest.take n, rest.drop n) else none
  | none => none

/-- Decode a msgpack array header: element count and remaining input. -/
def decArrHeader : Bytes → Option (Nat × Bytes)
  | [] => none
  | b :: rest =>
    if 0x90 ≤ b ∧ b ≤ 0x9f then some (b - 0x90, rest)
    else if b = 0xdc then
      match rest with
      | h :: lo :: r => some (h * 256 + lo, r)
      | _ => none
    else if b = 0xdd then
      match rest with
      | h3 :: h2 :: h1 :: h0 :: r =>
        some (((h3 * 256 + h2) * 256 + h1) * 256 + h0, r)
      | _ => none
    else none

/-- Decode a msgpack map header: entry count and remaining input.  Used to
test whether a serialized object is a self-describing map. -/
def decMapHeader : Bytes → Option (Nat × Bytes)
  | [] => none
  | b :: rest =>
    if 0x80 ≤ b ∧ b ≤ 0x8f then some (b - 0x80, rest)
    else if b = 0xde then
      match rest with
      | h :: lo :: r => some (h * 256 + lo, r)
      | _ => none
    else if b = 0xdf then
      match rest with
      | h3 :: h2 :: h1 :: h0 :: r =>
        some (((h3 * 256 + h2) * 256 + h1) * 256 + h0, r)
      | _ => none
    else none

/-- Decode a run of `n` msgpack strings. -/
def decStrs : Nat → Bytes → Option (List Bytes × Bytes)
  | 0, l => some ([], l)
  | n + 1, l =>
    match decStr l with
    | some (s, r) =>
      match decStrs n r with
      | some (ss, r2) => some (s :: ss, r2)
      | none => none
    | none => none

/-- Deserialize an `SDP` structure from bytes, following the layout that
`MSGPACK_DEFINE(ufrag, pwd, candidates)` generates: a three-element array
holding two strings and an array of strings. -/
def decodeSDP (l : Bytes) : Option SDP :=
  match decArrHeader l with
  | some (k, r1) =>
    if k = 3 then
      match decStr r1 with
      | some (u, r2) =>
        match decStr r2 with
        | some (p, r3) =>
          match decArrHeader r3 with
          | some (n, r4) =>
            match decStrs n r4 with
            | some (cs, []) => some ⟨u, p, cs⟩
            | _ => none
          | none => none
        | none => none
      | none => none
    else none
  | none => none

/-- ASCII digits of a number below `10 ^ fuel`, least significant first;
empty on zero. -/
def decDigitsRev : Nat → Nat → Bytes
  | 0, _ => []
  | fuel + 1, n =>
    if n = 0 then [] else (n % 10 + 48) :: decDigitsRev fuel (n / 10)

/-- Decimal ASCII rendering of a number (`snprintf %u`); ten digits cover
every value the candidate fields can hold (they are at most 32-bit in the
source). -/
def natDec (n : Nat) : Bytes :=
  if n = 0 then [48] else (decDigitsRev 10 n).reverse

/-- Numeric value of ASCII digits, least significant first. -/
def valRev : Bytes → Nat
  | [] => 0
  | d :: ds => (d - 48) + 10 * valRev ds

/-- Numeric value of a decimal ASCII string (`strtoul`). -/
def decToNat (l : Bytes) : Nat := valRev l.reverse

/-- Check that a byte string is a nonempty run of ASCII digits. -/
def isDigits (l : Bytes) : Bool :=
  !l.isEmpty && l.all (fun d => 48 ≤ d && d ≤ 57)

/-- The ASCII space byte. -/
def spByte : Nat := 32

/-- Take the space-delimited token at the head of a byte string, returning
the token and the input past the delimiter. -/
def nextTok (l : Bytes) : Bytes × Bytes :=
  (l.takeWhile (fun b => b ≠ spByte), (l.dropWhile (fun b => b ≠ spByte)).drop 1)

/-- Modelled from the spec: the implementation of `pj_ice_sess_cand` lives in
the external ICE library; the glossary describes a candidate as a
(transport, address, port) tuple written as one standard ICE candidate text
line, `foundation comp transport priority address port typ type`. -/
structure IceCandidateM : Type where
  foundation : Bytes
  compId : Nat
  transport : Bytes
  prio : Nat
  addr : Bytes
  port : Nat
  typ : Bytes
deriving DecidableEq

/-- The literal `typ` token of a candidate line. -/
def typTok : Bytes := [116, 121, 112]

/-- Render a candidate as its standard ICE text line. -/
def printCand (c : IceCandidateM) : Bytes :=
  c.foundation ++ spByte :: natDec c.compId ++ spByte :: c.transport ++
  spByte :: natDec c.prio ++ spByte :: c.addr ++ spByte :: natDec c.port ++
  spByte :: typTok ++ spByte :: c.typ

/-- Modelled from the spec: `IceTransport::getCandidateFromSDP` (declared at
`ice_transport.h` line 160, implementation absent) parses one standard ICE
candidate text line into a candidate structure, rejecting malformed lines. -/
def getCandidateFromSDP (line : Bytes) : Option IceCandidateM :=
  let p1 := nextTok line
  let p2 := nextTok p1.2
  let p3 := nextTok p2.2
  let p4 := nextTok p3.2
  let p5 := nextTok p4.2
  let p6 := nextTok p5.2
  let p7 := nextTok p6.2
  let p8 := nextTok p7.2
  if p1.1 ≠ [] ∧ isDigits p2.1 ∧ p3.1 ≠ [] ∧ isDigits p4.1 ∧ p5.1 ≠ [] ∧
      isDigits p6.1 ∧ p7.1 = typTok ∧ p8.1 ≠ [] ∧ p8.2 = [] then
    some ⟨p1.1, decToNat p2.1, p3.1, decToNat p4.1, p5.1, decToNat p6.1, p8.1⟩
  else none

/-- The `ICESDP` result structure of `ice_transport.h` lines 56-61. -/
structure ICESDP : Type where
  rem_candidates : List IceCandidateM
  rem_ufrag : Bytes
  rem_pwd : Bytes
deriving DecidableEq

/-- Modelled from the spec: `IceTransport::parseIceCandidates` (declared at
`ice_transport.h` line 186, implementation absent) unpacks the msgpack `SDP`
blob and converts each candidate line with `getCandidateFromSDP`, keeping
the lines that parse. -/
def parseIceCandidates (blob : Bytes) : Option ICESDP :=
  match decodeSDP blob with
  | some sdp =>
    some ⟨sdp.candidates.filterMap getCandidateFromSDP, sdp.ufrag, sdp.pwd⟩
  | none => none

/-- An IP address/port pair, the model of `IpAddr`. -/
structure IpAddr : Type where
  addr : Nat
  port : Nat
deriving DecidableEq

/-- The observable state of an `IceTransport`: the per-component local and
remote addresses are behind the private implementation, so they are
modelled as unconstrained functions of the component id. -/
structure IceTransport : Type where
  localAddress : Nat → IpAddr
  remoteAddress : Nat → IpAddr

/-- `IceTransport::getLocalAddress(comp_id)` (`ice_transport.h` line 135). -/
def IceTransport.getLocalAddress (t : IceTransport) (comp_id : Nat) : IpAddr :=
  t.localAddress comp_id

/-- `IceTransport::getDefaultLocalAddress()` (`ice_transport.h` line 139):
`return getLocalAddress(1);`. -/
def IceTransport.getDefaultLocalAddress (t : IceTransport) : IpAddr :=
  t.getLocalAddress 1

/-- A queued channel-open request: the requested channel name together with
the identifier of the `ConnectCallback` that awaits it. -/
structure ChanReq : Type where
  name : String
  cb : Nat
deriving DecidableEq

/-- A pending transport negotiation context for one remote device, holding
the channel-open requests attached to it. -/
structure PendingCtx : Type where
  device : Nat
  reqs : List ChanReq
deriving DecidableEq

/-- An established `MultiplexedSocket` for one remote device, holding the
channel-opens sent on it and still awaiting the remote decision. -/
structure MxSock : Type where
  device : Nat
  pending : List ChanReq
deriving DecidableEq

/-- The two ways a `ConnectCallback` can fire: with a live `ChannelSocket`
handle, or with a null/empty handle. -/
inductive CbRes : Type where
  | live
  | nullHandle
deriving DecidableEq

/-- Modelled from the spec: the `ConnectionManager` registry state (the
implementation behind the `Impl` object is absent from the sources; spec
section 3 "Connection registry").  `nextCb` allocates callback identifiers;
`fired` is the log of callback invocations. -/
structure CMState : Type where
  nextCb : Nat
  connecting : List PendingCtx
  ready : List MxSock
  fired : List (Nat × CbRes)
deriving DecidableEq

/-- The initial, empty registry. -/
def CMState.init : CMState := ⟨0, [], [], []⟩

/-- Whether an established socket for the device exists. -/
def hasReady (s : CMState) (d : Nat) : Bool := s.ready.any (fun k => k.device == d)

/-- Whether a pending negotiation context for the device exists. -/
def hasPending (s : CMState) (d : Nat) : Bool :=
  s.connecting.any (fun c => c.device == d)

/-- Attach a channel-open request to the first context of the device. -/
def attachCtx : List PendingCtx → Nat → ChanReq → List PendingCtx
  | [], _, _ => []
  | c :: cs, d, r =>
    if c.device = d then ⟨c.device, c.reqs ++ [r]⟩ :: cs
    else c :: attachCtx cs d r

/-- Enqueue a channel-open on the first ready socket of the device. -/
def enqueueSock : List MxSock → Nat → ChanReq → List MxSock
  | [], _, _ => []
  | k :: ks, d, r =>
    if k.device = d then ⟨k.device, k.pending ++ [r]⟩ :: ks
    else k :: enqueueSock ks d r

/-- Modelled from the spec: one `connectDevice` call as processed by the
asynchronous worker (spec section 4.1, negotiation algorithm step 2 and the
`noNewSocket` clause of the public contract).  A fresh callback identifier
`s.nextCb` is allocated for the call. -/
def stepConnect (s : CMState) (d : Nat) (name : String) (noNew forceNew : Bool) :
    CMState :=
  let r : ChanReq := ⟨name, s.nextCb⟩
  if forceNew then
    ⟨s.nextCb + 1, s.connecting ++ [⟨d, [r]⟩], s.ready, s.fired⟩
  else if hasReady s d then
    ⟨s.nextCb + 1, s.connecting, enqueueSock s.ready d r, s.fired⟩
  else if noNew then
    ⟨s.nextCb + 1, s.connecting, s.ready, s.fired ++ [(s.nextCb, .nullHandle)]⟩
  else if hasPending s d then
    ⟨s.nextCb + 1, attachCtx s.connecting d r, s.ready, s.fired⟩
  else
    ⟨s.nextCb + 1, s.connecting ++ [⟨d, [r]⟩], s.ready, s.fired⟩

/-- The channel-open requests attached to the contexts of a device. -/
def reqsFor (l : List PendingCtx) (d : Nat) : List ChanReq :=
  (l.filter (fun c => c.device == d)).flatMap PendingCtx.reqs

/-- The channel-opens pending on the sockets of a device. -/
def sockReqsFor (l : List MxSock) (d : Nat) : List ChanReq :=
  (l.filter (fun k => k.device == d)).flatMap MxSock.pending

/-- Modelled from the spec: negotiation failure or timeout (step 7 of the
outgoing algorithm): every attached callback fires with an empty handle and
the contexts of the device are removed. -/
def stepCtxFail (s : CMState) (d : Nat) : CMState :=
  ⟨s.nextCb, s.connecting.filter (fun c => c.device != d), s.ready,
   s.fired ++ (reqsFor s.connecting d).map (fun r => (r.cb, .nullHandle))⟩

/-- Extract the first context of a device. -/
def extractCtx : List PendingCtx → Nat → Option (PendingCtx × List PendingCtx)
  | [], _ => none
  | c :: cs, d =>
    if c.device = d then some (c, cs)
    else
      match extractCtx cs d with
      | none => none
      | some (x, rest) => some (x, c :: rest)

/-- Modelled from the spec: negotiation success (step 6 of the outgoing
algorithm): a `MultiplexedSocket` is constructed and the queued
channel-opens are drained through it, awaiting the remote decision. -/
def stepCtxDone (s : CMState) (d : Nat) : CMState :=
  match extractCtx s.connecting d with
  | none => s
  | some (c, rest) => ⟨s.nextCb, rest, s.ready ++ [⟨d, c.reqs⟩], s.fired⟩

/-- Extract the first request with the given name from a request list. -/
def extractReq : List ChanReq → String → Option (Nat × List ChanReq)
  | [], _ => none
  | r :: rs, n =>
    if r.name = n then some (r.cb, rs)
    else
      match extractReq rs n with
      | none => none
      | some (c, rest) => some (c, r :: rest)

/-- Resolve one pending channel-open with the given name on the sockets of
a device, returning the callback to fire, if any. -/
def resolveChan : List MxSock → Nat → String → Option Nat × List MxSock
  | [], _, _ => (none, [])
  | k :: ks, d, n =>
    if k.device = d then
      match extractReq k.pending n with
      | some (cb, rest) => (some cb, ⟨k.device, rest⟩ :: ks)
      | none =>
        let (c, ks2) := resolveChan ks d n
        (c, k :: ks2)
    else
      let (c, ks2) := resolveChan ks d n
      (c, k :: ks2)

/-- Modelled from the spec: the remote decision on a channel-open (section
4.4): on accept the callback fires with the live `ChannelSocket`, on reject
or channel timeout it fires with an empty handle. -/
def stepChanDecision (s : CMState) (d : Nat) (n : String) (res : CbRes) : CMState :=
  match resolveChan s.ready d n with
  | (some cb, socks) => ⟨s.nextCb, s.connecting, socks, s.fired ++ [(cb, res)]⟩
  | (none, _) => s

/-- Modelled from the spec: `closeConnectionsWith` / socket death for one
device: its sockets and contexts disappear and every outstanding callback
fires with an empty handle. -/
def stepClose (s : CMState) (d : Nat) : CMState :=
  ⟨s.nextCb, s.connecting.filter (fun c => c.device != d),
   s.ready.filter (fun k => k.device != d),
   s.fired ++ ((reqsFor s.connecting d).map (fun r => (r.cb, CbRes.nullHandle)) ++
     (sockReqsFor s.ready d).map (fun r => (r.cb, CbRes.nullHandle)))⟩

/-- Every channel-open request outstanding anywhere in the registry. -/
def outstanding (s : CMState) : List ChanReq :=
  s.connecting.flatMap PendingCtx.reqs ++ s.ready.flatMap MxSock.pending

/-- Modelled from the spec: `ConnectionManager` destruction: every pending
callback is invoked with an empty handle before the state is freed. -/
def stepShutdown (s : CMState) : CMState :=
  ⟨s.nextCb, [], [],
   s.fired ++ (outstanding s).map (fun r => (r.cb, CbRes.nullHandle))⟩

/-- The registry events. -/
inductive Event : Type where
  | connect (d : Nat) (name : String) (noNew forceNew : Bool)
  | ctxFail (d : Nat)
  | ctxDone (d : Nat)
  | chanAccept (d : Nat) (name : String)
  | chanReject (d : Nat) (name : String)
  | close (d : Nat)
  | shutdown
deriving DecidableEq

/-- One registry transition. -/
def step (s : CMState) : Event → CMState
  | .connect d n nn fn => stepConnect s d n nn fn
  | .ctxFail d => stepCtxFail s d
  | .ctxDone d => stepCtxDone s d
  | .chanAccept d n => stepChanDecision s d n .live
  | .chanReject d n => stepChanDecision s d n .nullHandle
  | .close d => stepClose s d
  | .shutdown => stepShutdown s

/-- Run a sequence of events from a state. -/
def run (s : CMState) : List Event → CMState
  | [] => s
  | e :: es => run (step s e) es

/-- Whether an event is a `connectDevice` call with `forceNewSocket` set. -/
def Event.isForceNew : Event → Bool
  | .connect _ _ _ fn => fn
  | _ => false

/-- The callback identifiers recorded in the invocation log. -/
def firedCbs (s : CMState) : List Nat := s.fired.map Prod.fst

/-- The callback identifiers still outstanding in the registry. -/
def outCbs (s : CMState) : List Nat := (outstanding s).map ChanReq.cb

/-- `ConnectionManager::isConnecting(deviceId, name)`
(`connectionmanager.h` line 126, implementation absent): modelled from the
spec as a lookup of a pending channel-open with that exact name for the
device, whether it is queued on a negotiation context or already sent on a
ready socket and awaiting the remote decision. -/
def isConnecting (s : CMState) (d : Nat) (n : String) : Bool :=
  s.connecting.any (fun c => c.device == d && c.reqs.any (fun r => r.name == n)) ||
  s.ready.any (fun k => k.device == d && k.pending.any (fun r => r.name == n))

/-- A `connectDevice` request as issued by the application, before the
asynchronous worker has seen it. -/
structure IssuedReq : Type where
  device : Nat
  name : String
  noNew : Bool
  forceNew : Bool
deriving DecidableEq

/-- The application-visible state: the registry plus the queue of issued
requests not yet processed by the asynchronous worker. -/
structure AppState : Type where
  cm : CMState
  issued : List IssuedReq
deriving DecidableEq

/-- Modelled from the spec: `connectDevice` is fully asynchronous; issuing
a request only queues it for the worker and touches no registry state. -/
def issueRequest (a : AppState) (q : IssuedReq) : AppState :=
  ⟨a.cm, a.issued ++ [q]⟩

/-- `isConnecting` as seen by the application: it inspects the registry
only, never the issued-but-unprocessed queue. -/
def AppState.isConnecting (a : AppState) (d : Nat) (n : String) : Bool :=
  Dhtnet.isConnecting a.cm d n

/-- One endpoint in the simultaneous-open scenario: its device identifier,
whether its local outbound offer is still pending, and its registry of
established sockets (peer device of each). -/
structure Node : Type where
  deviceId : Nat
  pendingOut : Bool
  sockets : List Nat
deriving DecidableEq

/-- Modelled from the spec: the tie-break rule of the incoming negotiation
algorithm, step 2: on receiving an inbound offer while a local outbound
pending context exists for the same device, the side with the numerically
lower `DeviceId` keeps its own offer; the other side discards its local
offer and treats the inbound request as authoritative. -/
def receiveOffer (n : Node) (peer : Nat) : Node :=
  if n.pendingOut ∧ n.deviceId < peer then n
  else ⟨n.deviceId, false, n.sockets⟩

/-- Modelled from the spec: the simultaneous-open scenario (spec section
4.1 tie-break and seed test 4).  Both sides hold an outbound pending offer
toward each other, each processes the other's inbound offer by the
tie-break rule, and the single surviving negotiation completes, installing
one `MultiplexedSocket` in each registry with the surviving side as
initiator.  Returns the two settled nodes and the initiator identifier. -/
def settleSimultaneous (a b : Nat) : Node × Node × Nat :=
  let na := receiveOffer ⟨a, true, []⟩ b
  let nb := receiveOffer ⟨b, true, []⟩ a
  if na.pendingOut then
    (⟨a, false, na.sockets ++ [b]⟩, ⟨b, nb.pendingOut, nb.sockets ++ [a]⟩, a)
  else if nb.pendingOut then
    (⟨a, false, na.sockets ++ [b]⟩, ⟨b, false, nb.sockets ++ [a]⟩, b)
  else (na, nb, a)

/-! ## Serialization lemmas -/

theorem decStrHeader_strHeader (n : Nat) (l : Bytes) (h : n < 4294967296) :
    decStrHeader (strHeader n ++ l) = some (n, l) := by
  unfold strHeader decStrHeader
  by_cases h31 : n ≤ 31
  · simp only [if_pos h31, List.cons_append, List.nil_append]
    rw [if_pos (by omega : 0xa0 ≤ 0xa0 + n ∧ 0xa0 + n ≤ 0xbf)]
    simp
  · rw [if_neg h31]
    by_cases h256 : n < 256
    · simp only [if_pos h256, List.cons_append, List.nil_append]
      norm_num
    · rw [if_neg h256]
      by_cases h64k : n < 65536
      · simp only [if_pos h64k, List.cons_append, List.nil_append]
        norm_num
        omega
      · rw [if_neg h64k]
        simp only [List.cons_append, List.nil_append]
        norm_num
        omega

theorem decStr_encStr (s : Bytes) (l : Bytes) (h : s.length < 4294967296) :
    decStr (encStr s ++ l) = some (s, l) := by
  unfold decStr encStr
  rw [List.append_assoc, decStrHeader_strHeader s.length (s ++ l) h]
  simp only []
  rw [if_pos (by simp : s.length ≤ (s ++ l).length)]
  rw [List.take_left, List.drop_left]

theorem decArrHeader_arrHeader (n : Nat) (l : Bytes) (h : n < 4294967296) :
    decArrHeader (arrHeader n ++ l) = some (n, l) := by
  unfold arrHeader decArrHeader
  by_cases h15 : n ≤ 15
  · simp only [if_pos h15, List.cons_append, List.nil_append]
    rw [if_pos (by omega : 0x90 ≤ 0x90 + n ∧ 0x90 + n ≤ 0x9f)]
    simp
  · rw [if_neg h15]
    by_cases h64k : n < 65536
    · simp only [if_pos h64k, List.cons_append, List.nil_append]
      norm_num
      omega
    · rw [if_neg h64k]
      simp only [List.cons_append, List.nil_append]
      norm_num
      omega

theorem decStrs_encode (cs : List Bytes) (l : Bytes)
    (h : ∀ c ∈ cs, c.length < 4294967296) :
    decStrs cs.length (encodeArr (cs.map MsgVal.str) ++ l) = some (cs, l) := by
  induction cs with
  | nil => simp [decStrs, encodeArr]
  | cons c cs ih =>
    simp only [List.map_cons, List.length_cons, encodeArr, encodeVal, decStrs]
    rw [List.append_assoc, decStr_encStr c _ (h c (List.mem_cons_self c cs))]
    simp only []
    rw [ih (fun x hx => h x (List.mem_cons_of_mem c hx))]

theorem decodeSDP_encode (s : SDP) (hu : s.ufrag.length < 4294967296)
    (hp : s.pwd.length < 4294967296) (hn : s.candidates.length < 4294967296)
    (hc : ∀ c ∈ s.candidates, c.length < 4294967296) :
    decodeSDP (SDP.encode s) = some s := by
  have henc : SDP.encode s =
      arrHeader 3 ++ (encStr s.ufrag ++ (encStr s.pwd ++
        (arrHeader s.candidates.length ++
          (encodeArr (s.candidates.map MsgVal.str) ++ [])))) := by
    simp [SDP.encode, SDP.packed, encodeVal, encodeArr, List.append_assoc]
  rw [henc]
  unfold decodeSDP
  rw [decArrHeader_arrHeader 3 _ (by omega)]
  simp only [if_pos rfl]
  rw [decStr_encStr s.ufrag _ hu]
  simp only []
  rw [decStr_encStr s.pwd _ hp]
  simp only []
  rw [decArrHeader_arrHeader s.candidates.length _ hn]
  simp only []
  rw [decStrs_encode s.candidates [] hc]
  simp

/-! ## Candidate-line lemmas -/


theorem valRev_decDigitsRev (f n : Nat) (h : n < 10 ^ f) :
    valRev (decDigitsRev f n) = n := by
  induction f generalizing n with
  | zero =>
    simp only [pow_zero, Nat.lt_one_iff] at h
    subst h
    simp [decDigitsRev, valRev]
  | succ f ih =>
    by_cases h0 : n = 0
    · subst h0; simp [decDigitsRev, valRev]
    · rw [decDigitsRev, if_neg h0]
      simp only [valRev]
      rw [ih (n / 10) (by rw [pow_succ] at h; omega)]
      omega

theorem decDigitsRev_digits (f n : Nat) :
    ∀ d ∈ decDigitsRev f n, 48 ≤ d ∧ d ≤ 57 := by
  induction f generalizing n with
  | zero => simp [decDigitsRev]
  | succ f ih =>
    by_cases h0 : n = 0
    · subst h0; simp [decDigitsRev]
    · rw [decDigitsRev, if_neg h0]
      intro d hd
      rcases List.mem_cons.1 hd with h | h
      · subst h; constructor <;> omega
      · exact ih (n / 10) d h

theorem natDec_digits (n : Nat) : ∀ d ∈ natDec n, 48 ≤ d ∧ d ≤ 57 := by
  unfold natDec
  by_cases h : n = 0
  · simp [h]
  · rw [if_neg h]
    intro d hd
    exact decDigitsRev_digits 10 n d (List.mem_reverse.1 hd)

theorem natDec_ne_nil (n : Nat) : natDec n ≠ [] := by
  unfold natDec
  by_cases h : n = 0
  · simp [h]
  · rw [if_neg h]
    intro hc
    have := List.reverse_eq_nil_iff.1 hc
    rw [decDigitsRev, if_neg h] at this
    exact List.cons_ne_nil _ _ this

theorem decToNat_natDec (n : Nat) (h : n < 10000000000) :
    decToNat (natDec n) = n := by
  unfold decToNat natDec
  by_cases h0 : n = 0
  · simp [h0, valRev]
  · rw [if_neg h0, List.reverse_reverse,
      valRev_decDigitsRev 10 n (by norm_num; omega)]

theorem isDigits_natDec (n : Nat) : isDigits (natDec n) = true := by
  unfold isDigits
  rw [Bool.and_eq_true]
  constructor
  · simp [List.isEmpty_iff, natDec_ne_nil n]
  · rw [List.all_eq_true]
    intro d hd
    have := natDec_digits n d hd
    simp only [Bool.and_eq_true, decide_eq_true_eq]
    omega

theorem natDec_no_space (n : Nat) : ∀ d ∈ natDec n, d ≠ 32 := by
  intro d hd
  have := natDec_digits n d hd
  omega


theorem nextTok_append (t r : Bytes) (ht : ∀ b ∈ t, b ≠ 32) :
    nextTok (t ++ 32 :: r) = (t, r) := by
  unfold nextTok spByte
  induction t with
  | nil => simp
  | cons a t ih =>
    have ha : a ≠ 32 := ht a (List.mem_cons_self a t)
    simp only [List.cons_append, List.takeWhile_cons, List.dropWhile_cons]
    simp only [ha, decide_not, decide_eq_true_eq, if_pos, Prod.mk.injEq] at ih ⊢
    have := ih (fun b hb => ht b (List.mem_cons_of_mem a hb))
    simp [ha, this.1, this.2]

theorem nextTok_last (t : Bytes) (ht : ∀ b ∈ t, b ≠ 32) :
    nextTok t = (t, []) := by
  unfold nextTok spByte
  have h1 : t.takeWhile (fun b => decide (b ≠ 32)) = t :=
    List.takeWhile_eq_self_iff.2 (by intro x hx; simpa using ht x hx)
  have h2 : t.dropWhile (fun b => decide (b ≠ 32)) = [] :=
    List.dropWhile_eq_nil_iff.2 (by intro x hx; simpa using ht x hx)
  rw [h1, h2]
  simp


/-- A well-formed candidate-line token: nonempty and free of spaces. -/
def ValidTok (t : Bytes) : Prop := t ≠ [] ∧ ∀ b ∈ t, b ≠ 32

/-- A well-formed candidate: its text tokens are nonempty and space-free,
and its numeric fields fit the at-most-32-bit types they have in the
source (`pj_ice_sess_cand`). -/
def ValidCand (c : IceCandidateM) : Prop :=
  ValidTok c.foundation ∧ ValidTok c.transport ∧ ValidTok c.addr ∧
  ValidTok c.typ ∧ c.compId < 4294967296 ∧ c.prio < 4294967296 ∧
  c.port < 4294967296

theorem printCand_eq (c : IceCandidateM) :
    printCand c = c.foundation ++ 32 :: (natDec c.compId ++ 32 ::
      (c.transport ++ 32 :: (natDec c.prio ++ 32 :: (c.addr ++ 32 ::
        (natDec c.port ++ 32 :: (typTok ++ 32 :: c.typ)))))) := by
  simp [printCand, spByte]

theorem getCandidateFromSDP_printCand (c : IceCandidateM) (h : ValidCand c) :
    getCandidateFromSDP (printCand c) = some c := by
  obtain ⟨⟨hf, hfs⟩, ⟨htr, htrs⟩, ⟨had, hads⟩, ⟨hty, htys⟩, hcomp, hprio, hport⟩ := h
  have h1 : nextTok (printCand c) = (c.foundation, natDec c.compId ++ 32 ::
      (c.transport ++ 32 :: (natDec c.prio ++ 32 :: (c.addr ++ 32 ::
        (natDec c.port ++ 32 :: (typTok ++ 32 :: c.typ)))))) := by
    rw [printCand_eq]; exact nextTok_append _ _ hfs
  have h2 : nextTok (natDec c.compId ++ 32 ::
      (c.transport ++ 32 :: (natDec c.prio ++ 32 :: (c.addr ++ 32 ::
        (natDec c.port ++ 32 :: (typTok ++ 32 :: c.typ)))))) =
      (natDec c.compId, c.transport ++ 32 :: (natDec c.prio ++ 32 ::
        (c.addr ++ 32 :: (natDec c.port ++ 32 :: (typTok ++ 32 :: c.typ))))) :=
    nextTok_append _ _ (natDec_no_space _)
  have h3 : nextTok (c.transport ++ 32 :: (natDec c.prio ++ 32 ::
      (c.addr ++ 32 :: (natDec c.port ++ 32 :: (typTok ++ 32 :: c.typ))))) =
      (c.transport, natDec c.prio ++ 32 :: (c.addr ++ 32 ::
        (natDec c.port ++ 32 :: (typTok ++ 32 :: c.typ)))) :=
    nextTok_append _ _ htrs
  have h4 : nextTok (natDec c.prio ++ 32 :: (c.addr ++ 32 ::
      (natDec c.port ++ 32 :: (typTok ++ 32 :: c.typ)))) =
      (natDec c.prio, c.addr ++ 32 :: (natDec c.port ++ 32 ::
        (typTok ++ 32 :: c.typ))) :=
    nextTok_append _ _ (natDec_no_space _)
  have h5 : nextTok (c.addr ++ 32 :: (natDec c.port ++ 32 ::
      (typTok ++ 32 :: c.typ))) =
      (c.addr, natDec c.port ++ 32 :: (typTok ++ 32 :: c.typ)) :=
    nextTok_append _ _ hads
  have h6 : nextTok (natDec c.port ++ 32 :: (typTok ++ 32 :: c.typ)) =
      (natDec c.port, typTok ++ 32 :: c.typ) :=
    nextTok_append _ _ (natDec_no_space _)
  have h7 : nextTok (typTok ++ 32 :: c.typ) = (typTok, c.typ) :=
    nextTok_append _ _ (by intro b hb; simp [typTok] at hb; omega)
  have h8 : nextTok c.typ = (c.typ, []) := nextTok_last _ htys
  simp only [getCandidateFromSDP, h1, h2, h3, h4, h5, h6, h7, h8]
  rw [if_pos]
  · simp [decToNat_natDec c.compId (by omega), decToNat_natDec c.prio (by omega),
      decToNat_natDec c.port (by omega)]
  · refine ⟨hf, isDigits_natDec _, htr, isDigits_natDec _, had,
      isDigits_natDec _, trivial, hty, trivial⟩


/-! ## Registry accounting lemmas -/

/-- Callback identifiers attached to negotiation contexts. -/
def ctxCbs (l : List PendingCtx) : List Nat :=
  l.flatMap (fun c => c.reqs.map ChanReq.cb)

/-- Callback identifiers pending on established sockets. -/
def sockCbs (l : List MxSock) : List Nat :=
  l.flatMap (fun k => k.pending.map ChanReq.cb)

theorem outCbs_eq (s : CMState) :
    outCbs s = ctxCbs s.connecting ++ sockCbs s.ready := by
  simp [outCbs, outstanding, ctxCbs, sockCbs, List.map_flatMap, List.map_append]

theorem count_attachCtx (l : List PendingCtx) (d : Nat) (r : ChanReq) (x : Nat)
    (h : l.any (fun c => c.device == d) = true) :
    (ctxCbs (attachCtx l d r)).count x =
      (ctxCbs l).count x + (if x = r.cb then 1 else 0) := by
  induction l with
  | nil => simp at h
  | cons c cs ih =>
    by_cases hc : c.device = d
    · by_cases hx : x = r.cb <;>
        simp [attachCtx, hc, ctxCbs, List.count_append, List.count_cons, hx] <;>
        omega
    · have h2 : cs.any (fun c => c.device == d) = true := by
        simp [List.any_cons, hc] at h
        simpa using h
      simp only [attachCtx, if_neg hc, ctxCbs, List.flatMap_cons, List.count_append]
      have := ih h2
      simp only [ctxCbs] at this
      omega

theorem count_enqueueSock (l : List MxSock) (d : Nat) (r : ChanReq) (x : Nat)
    (h : l.any (fun k => k.device == d) = true) :
    (sockCbs (enqueueSock l d r)).count x =
      (sockCbs l).count x + (if x = r.cb then 1 else 0) := by
  induction l with
  | nil => simp at h
  | cons k ks ih =>
    by_cases hc : k.device = d
    · by_cases hx : x = r.cb <;>
        simp [enqueueSock, hc, sockCbs, List.count_append, List.count_cons, hx] <;>
        omega
    · have h2 : ks.any (fun k => k.device == d) = true := by
        simp [List.any_cons, hc] at h
        simpa using h
      simp only [enqueueSock, if_neg hc, sockCbs, List.flatMap_cons, List.count_append]
      have := ih h2
      simp only [sockCbs] at this
      omega


theorem count_ctxCbs_filter_split (l : List PendingCtx) (d : Nat) (x : Nat) :
    (ctxCbs l).count x =
      (ctxCbs (l.filter (fun c => c.device == d))).count x +
      (ctxCbs (l.filter (fun c => c.device != d))).count x := by
  induction l with
  | nil => simp [ctxCbs]
  | cons c cs ih =>
    by_cases hc : c.device = d <;>
      simp [ctxCbs, List.filter_cons, hc, List.count_append] at ih ⊢ <;>
      omega

theorem count_sockCbs_filter_split (l : List MxSock) (d : Nat) (x : Nat) :
    (sockCbs l).count x =
      (sockCbs (l.filter (fun k => k.device == d))).count x +
      (sockCbs (l.filter (fun k => k.device != d))).count x := by
  induction l with
  | nil => simp [sockCbs]
  | cons k ks ih =>
    by_cases hc : k.device = d <;>
      simp [sockCbs, List.filter_cons, hc, List.count_append] at ih ⊢ <;>
      omega

theorem count_reqsFor (l : List PendingCtx) (d : Nat) (x : Nat) :
    ((reqsFor l d).map ChanReq.cb).count x =
      (ctxCbs (l.filter (fun c => c.device == d))).count x := by
  simp [reqsFor, ctxCbs, List.map_flatMap]

theorem count_sockReqsFor (l : List MxSock) (d : Nat) (x : Nat) :
    ((sockReqsFor l d).map ChanReq.cb).count x =
      (sockCbs (l.filter (fun k => k.device == d))).count x := by
  simp [sockReqsFor, sockCbs, List.map_flatMap]

theorem count_extractCtx (l : List PendingCtx) (d : Nat) (c : PendingCtx)
    (rest : List PendingCtx) (h : extractCtx l d = some (c, rest)) (x : Nat) :
    (ctxCbs l).count x = (c.reqs.map ChanReq.cb).count x + (ctxCbs rest).count x := by
  induction l generalizing rest with
  | nil => simp [extractCtx] at h
  | cons a cs ih =>
    by_cases hc : a.device = d
    · simp only [extractCtx, if_pos hc, Option.some.injEq, Prod.mk.injEq] at h
      obtain ⟨h1, h2⟩ := h
      subst h1; subst h2
      simp [ctxCbs, List.count_append]
    · simp only [extractCtx, if_neg hc] at h
      match hrec : extractCtx cs d with
      | none => rw [hrec] at h; exact absurd h (by simp)
      | some (x2, rest2) =>
        rw [hrec] at h
        simp only [Option.some.injEq, Prod.mk.injEq] at h
        obtain ⟨h1, h2⟩ := h
        subst h1; subst h2
        have := ih rest2 hrec
        simp [ctxCbs, List.count_append] at this ⊢
        omega

theorem count_extractReq (l : List ChanReq) (n : String) (cb : Nat)
    (rest : List ChanReq) (h : extractReq l n = some (cb, rest)) (x : Nat) :
    (l.map ChanReq.cb).count x =
      (if x = cb then 1 else 0) + (rest.map ChanReq.cb).count x := by
  induction l generalizing rest with
  | nil => simp [extractReq] at h
  | cons a rs ih =>
    by_cases hc : a.name = n
    · simp only [extractReq, if_pos hc, Option.some.injEq, Prod.mk.injEq] at h
      obtain ⟨h1, h2⟩ := h
      subst h1; subst h2
      by_cases hx : x = a.cb <;> simp [List.count_cons, hx] <;> omega
    · simp only [extractReq, if_neg hc] at h
      match hrec : extractReq rs n with
      | none => rw [hrec] at h; exact absurd h (by simp)
      | some (cb2, rest2) =>
        rw [hrec] at h
        simp only [Option.some.injEq, Prod.mk.injEq] at h
        obtain ⟨h1, h2⟩ := h
        subst h1; subst h2
        have := ih rest2 hrec
        by_cases hx : x = a.cb <;>
          simp [List.count_cons, hx] at this ⊢ <;> omega

theorem count_resolveChan (l : List MxSock) (d : Nat) (n : String) (cb : Nat)
    (l2 : List MxSock) (h : resolveChan l d n = (some cb, l2)) (x : Nat) :
    (sockCbs l).count x = (if x = cb then 1 else 0) + (sockCbs l2).count x := by
  induction l generalizing l2 with
  | nil => simp [resolveChan] at h
  | cons k ks ih =>
    by_cases hc : k.device = d
    · simp only [resolveChan, if_pos hc] at h
      match hr : extractReq k.pending n with
      | some (cb2, rest) =>
        rw [hr] at h
        simp only [Prod.mk.injEq, Option.some.injEq] at h
        obtain ⟨h1, h2⟩ := h
        subst h2
        have := count_extractReq k.pending n cb2 rest hr x
        rw [h1] at this
        simp [sockCbs, List.count_append] at this ⊢
        omega
      | none =>
        rw [hr] at h
        match hrec : resolveChan ks d n with
        | (c2, ks2) =>
          rw [hrec] at h
          simp only [Prod.mk.injEq] at h
          obtain ⟨h1, h2⟩ := h
          subst h1
          subst h2
          have := ih ks2 hrec
          simp [sockCbs, List.count_append] at this ⊢
          omega
    · simp only [resolveChan, if_neg hc] at h
      match hrec : resolveChan ks d n with
      | (c2, ks2) =>
        rw [hrec] at h
        simp only [Prod.mk.injEq] at h
        obtain ⟨h1, h2⟩ := h
        subst h1
        subst h2
        have := ih ks2 hrec
        simp [sockCbs, List.count_append] at this ⊢
        omega


theorem stepConnect_nextCb (s : CMState) (d : Nat) (nm : String) (nn fn : Bool) :
    (stepConnect s d nm nn fn).nextCb = s.nextCb + 1 := by
  unfold stepConnect
  split_ifs <;> rfl

theorem stepConnect_counts (s : CMState) (d : Nat) (nm : String) (nn fn : Bool)
    (x : Nat) :
    (firedCbs (stepConnect s d nm nn fn)).count x +
      (outCbs (stepConnect s d nm nn fn)).count x =
    (firedCbs s).count x + (outCbs s).count x +
      (if x = s.nextCb then 1 else 0) := by
  by_cases hxe : x = s.nextCb
  · subst hxe
    simp only [if_pos rfl]
    unfold stepConnect
    by_cases hfn : fn
    · simp only [if_pos hfn]
      simp [firedCbs, outCbs_eq, ctxCbs, sockCbs, List.flatMap_append,
        List.count_append, List.count_cons] <;> omega
    · simp only [if_neg hfn]
      by_cases hr : hasReady s d
      · simp only [if_pos hr]
        have hd := count_enqueueSock s.ready d ⟨nm, s.nextCb⟩ s.nextCb hr
        simp [ChanReq.cb] at hd
        simp [firedCbs, outCbs_eq, List.count_append, hd] <;> omega
      · simp only [if_neg hr]
        by_cases hnn : nn
        · simp only [if_pos hnn]
          simp [firedCbs, outCbs_eq, List.count_append, List.count_cons] <;>
            omega
        · simp only [if_neg hnn]
          by_cases hp : hasPending s d
          · simp only [if_pos hp]
            have hd := count_attachCtx s.connecting d ⟨nm, s.nextCb⟩ s.nextCb hp
            simp [ChanReq.cb] at hd
            simp [firedCbs, outCbs_eq, List.count_append, hd] <;> omega
          · simp only [if_neg hp]
            simp [firedCbs, outCbs_eq, ctxCbs, sockCbs, List.flatMap_append,
              List.count_append, List.count_cons] <;> omega
  · simp only [if_neg hxe]
    unfold stepConnect
    by_cases hfn : fn
    · simp only [if_pos hfn]
      simp [hxe, Ne.symm hxe, firedCbs, outCbs_eq, ctxCbs, sockCbs, List.flatMap_append,
        List.count_append, List.count_cons] <;> omega
    · simp only [if_neg hfn]
      by_cases hr : hasReady s d
      · simp only [if_pos hr]
        have hd := count_enqueueSock s.ready d ⟨nm, s.nextCb⟩ x hr
        simp [ChanReq.cb, hxe] at hd
        simp [hxe, Ne.symm hxe, firedCbs, outCbs_eq, List.count_append, hd] <;> omega
      · simp only [if_neg hr]
        by_cases hnn : nn
        · simp only [if_pos hnn]
          simp [hxe, Ne.symm hxe, firedCbs, outCbs_eq, List.count_append, List.count_cons] <;>
            omega
        · simp only [if_neg hnn]
          by_cases hp : hasPending s d
          · simp only [if_pos hp]
            have hd := count_attachCtx s.connecting d ⟨nm, s.nextCb⟩ x hp
            simp [ChanReq.cb, hxe] at hd
            simp [hxe, Ne.symm hxe, firedCbs, outCbs_eq, List.count_append, hd] <;> omega
          · simp only [if_neg hp]
            simp [hxe, Ne.symm hxe, firedCbs, outCbs_eq, ctxCbs, sockCbs, List.flatMap_append,
              List.count_append, List.count_cons] <;> omega


theorem stepCtxFail_counts (s : CMState) (d : Nat) (x : Nat) :
    (firedCbs (stepCtxFail s d)).count x + (outCbs (stepCtxFail s d)).count x =
    (firedCbs s).count x + (outCbs s).count x := by
  have hsplit := count_ctxCbs_filter_split s.connecting d x
  have hreq := count_reqsFor s.connecting d x
  simp only [stepCtxFail, firedCbs, outCbs_eq, List.count_append,
    List.map_append, List.map_map]
  have hmap : (List.map (Prod.fst ∘ fun r => (r.cb, CbRes.nullHandle))
      (reqsFor s.connecting d)) = (reqsFor s.connecting d).map ChanReq.cb := by
    simp [Function.comp]
  rw [hmap, hreq]
  omega

theorem stepCtxDone_counts (s : CMState) (d : Nat) (x : Nat) :
    (firedCbs (stepCtxDone s d)).count x + (outCbs (stepCtxDone s d)).count x =
    (firedCbs s).count x + (outCbs s).count x := by
  simp only [stepCtxDone]
  match hrec : extractCtx s.connecting d with
  | none => rfl
  | some (c, rest) =>
    have hext := count_extractCtx s.connecting d c rest hrec x
    simp only [firedCbs, outCbs_eq, List.count_append, sockCbs,
      List.flatMap_append, List.flatMap_cons, List.flatMap_nil,
      List.append_nil] at hext ⊢
    omega

theorem stepChanDecision_counts (s : CMState) (d : Nat) (nm : String)
    (res : CbRes) (x : Nat) :
    (firedCbs (stepChanDecision s d nm res)).count x +
      (outCbs (stepChanDecision s d nm res)).count x =
    (firedCbs s).count x + (outCbs s).count x := by
  simp only [stepChanDecision]
  match hrc : resolveChan s.ready d nm with
  | (some cb, socks) =>
    have hres := count_resolveChan s.ready d nm cb socks hrc x
    by_cases hxe : x = cb
    · subst hxe
      simp only [firedCbs, outCbs_eq, List.count_append, List.map_append,
        List.map_cons, List.map_nil, List.count_cons, List.count_nil] at hres ⊢
      simp at hres ⊢
      omega
    · simp only [firedCbs, outCbs_eq, List.count_append, List.map_append,
        List.map_cons, List.map_nil, List.count_cons, List.count_nil] at hres ⊢
      simp [hxe, Ne.symm hxe] at hres ⊢
      omega
  | (none, socks) => rfl

theorem stepClose_counts (s : CMState) (d : Nat) (x : Nat) :
    (firedCbs (stepClose s d)).count x + (outCbs (stepClose s d)).count x =
    (firedCbs s).count x + (outCbs s).count x := by
  have hsplitC := count_ctxCbs_filter_split s.connecting d x
  have hsplitS := count_sockCbs_filter_split s.ready d x
  have hreq := count_reqsFor s.connecting d x
  have hsreq := count_sockReqsFor s.ready d x
  simp only [stepClose, firedCbs, outCbs_eq, List.count_append,
    List.map_append, List.map_map]
  have hmap1 : (List.map (Prod.fst ∘ fun r => (r.cb, CbRes.nullHandle))
      (reqsFor s.connecting d)) = (reqsFor s.connecting d).map ChanReq.cb := by
    simp [Function.comp]
  have hmap2 : (List.map (Prod.fst ∘ fun r => (r.cb, CbRes.nullHandle))
      (sockReqsFor s.ready d)) = (sockReqsFor s.ready d).map ChanReq.cb := by
    simp [Function.comp]
  rw [hmap1, hmap2, hreq, hsreq]
  omega

theorem stepShutdown_counts (s : CMState) (x : Nat) :
    (firedCbs (stepShutdown s)).count x + (outCbs (stepShutdown s)).count x =
    (firedCbs s).count x + (outCbs s).count x := by
  simp only [stepShutdown, firedCbs, outCbs_eq, List.count_append,
    List.map_append, List.map_map, ctxCbs, sockCbs, List.flatMap_nil,
    List.count_nil, List.append_nil]
  have hmap : (List.map (Prod.fst ∘ fun r => (r.cb, CbRes.nullHandle))
      (outstanding s)) = (outstanding s).map ChanReq.cb := by
    simp [Function.comp]
  rw [hmap]
  have houts : ((outstanding s).map ChanReq.cb).count x =
      (ctxCbs s.connecting).count x + (sockCbs s.ready).count x := by
    have h2 := outCbs_eq s
    simp only [outCbs] at h2
    rw [h2, List.count_append]
  simp only [ctxCbs, sockCbs] at houts
  omega

theorem outCbs_stepShutdown (s : CMState) : outCbs (stepShutdown s) = [] := by
  simp [stepShutdown, outCbs, outstanding]

theorem step_nextCb (s : CMState) (e : Event) :
    (step s e).nextCb = s.nextCb ∨
      ((step s e).nextCb = s.nextCb + 1 ∧ ∃ d nm nn fn, e = .connect d nm nn fn) := by
  cases e with
  | connect d nm nn fn =>
    right
    refine ⟨stepConnect_nextCb s d nm nn fn, d, nm, nn, fn, rfl⟩
  | ctxFail d => left; rfl
  | ctxDone d =>
    left
    simp only [step, stepCtxDone]
    match extractCtx s.connecting d with
    | none => rfl
    | some (c, rest) => rfl
  | chanAccept d nm =>
    left
    simp only [step, stepChanDecision]
    match resolveChan s.ready d nm with
    | (some cb, socks) => rfl
    | (none, socks) => rfl
  | chanReject d nm =>
    left
    simp only [step, stepChanDecision]
    match resolveChan s.ready d nm with
    | (some cb, socks) => rfl
    | (none, socks) => rfl
  | close d => left; rfl
  | shutdown => left; rfl

/-- The callback-accounting invariant: every allocated callback identifier
is, at any time, either already fired or outstanding in exactly one place,
and identifiers never allocated appear nowhere. -/
def Inv (s : CMState) : Prop :=
  ∀ x, (firedCbs s).count x + (outCbs s).count x = (if x < s.nextCb then 1 else 0)

theorem inv_init : Inv CMState.init := by
  intro x
  simp [CMState.init, firedCbs, outCbs, outstanding]

theorem inv_step (s : CMState) (e : Event) (h : Inv s) : Inv (step s e) := by
  cases e with
  | connect d nm nn fn =>
    intro x
    have hx := h x
    have hc := stepConnect_counts s d nm nn fn x
    have hn := stepConnect_nextCb s d nm nn fn
    simp only [step, hn]
    split_ifs at hx hc ⊢ <;> omega
  | ctxFail d =>
    intro x
    have hx := h x
    have hc := stepCtxFail_counts s d x
    have hn : (stepCtxFail s d).nextCb = s.nextCb := rfl
    simp only [step, hn]
    split_ifs at hx ⊢ <;> omega
  | ctxDone d =>
    intro x
    have hx := h x
    have hc := stepCtxDone_counts s d x
    have hn : (stepCtxDone s d).nextCb = s.nextCb := by
      simp only [stepCtxDone]
      match extractCtx s.connecting d with
      | none => rfl
      | some (c, rest) => rfl
    simp only [step, hn]
    split_ifs at hx ⊢ <;> omega
  | chanAccept d nm =>
    intro x
    have hx := h x
    have hc := stepChanDecision_counts s d nm .live x
    have hn : (stepChanDecision s d nm .live).nextCb = s.nextCb := by
      simp only [stepChanDecision]
      match resolveChan s.ready d nm with
      | (some cb, socks) => rfl
      | (none, socks) => rfl
    simp only [step, hn]
    split_ifs at hx ⊢ <;> omega
  | chanReject d nm =>
    intro x
    have hx := h x
    have hc := stepChanDecision_counts s d nm .nullHandle x
    have hn : (stepChanDecision s d nm .nullHandle).nextCb = s.nextCb := by
      simp only [stepChanDecision]
      match resolveChan s.ready d nm with
      | (some cb, socks) => rfl
      | (none, socks) => rfl
    simp only [step, hn]
    split_ifs at hx ⊢ <;> omega
  | close d =>
    intro x
    have hx := h x
    have hc := stepClose_counts s d x
    have hn : (stepClose s d).nextCb = s.nextCb := rfl
    simp only [step, hn]
    split_ifs at hx ⊢ <;> omega
  | shutdown =>
    intro x
    have hx := h x
    have hc := stepShutdown_counts s x
    have hn : (stepShutdown s).nextCb = s.nextCb := rfl
    simp only [step, hn]
    split_ifs at hx ⊢ <;> omega

theorem inv_run (s : CMState) (evs : List Event) (h : Inv s) : Inv (run s evs) := by
  induction evs generalizing s with
  | nil => exact h
  | cons e es ih => exact ih (step s e) (inv_step s e h)

theorem run_append_single (s : CMState) (evs : List Event) (e : Event) :
    run s (evs ++ [e]) = step (run s evs) e := by
  induction evs generalizing s with
  | nil => rfl
  | cons e2 es ih => exact ih (step s e2)


/-! ## Device uniqueness lemmas -/

theorem attachCtx_devices (l : List PendingCtx) (d : Nat) (r : ChanReq) :
    (attachCtx l d r).map PendingCtx.device = l.map PendingCtx.device := by
  induction l with
  | nil => rfl
  | cons c cs ih =>
    by_cases hc : c.device = d <;> simp [attachCtx, hc, ih]

theorem attachCtx_length (l : List PendingCtx) (d : Nat) (r : ChanReq) :
    (attachCtx l d r).length = l.length := by
  have := attachCtx_devices l d r
  have h2 := congrArg List.length this
  simpa using h2

theorem extractCtx_devices_perm (l : List PendingCtx) (d : Nat) (c : PendingCtx)
    (rest : List PendingCtx) (h : extractCtx l d = some (c, rest)) :
    (l.map PendingCtx.device).Perm (c.device :: rest.map PendingCtx.device) := by
  induction l generalizing rest with
  | nil => simp [extractCtx] at h
  | cons a cs ih =>
    by_cases hc : a.device = d
    · simp only [extractCtx, if_pos hc, Option.some.injEq, Prod.mk.injEq] at h
      obtain ⟨h1, h2⟩ := h
      subst h1; subst h2
      simp
    · simp only [extractCtx, if_neg hc] at h
      match hrec : extractCtx cs d with
      | none => rw [hrec] at h; exact absurd h (by simp)
      | some (c2, rest2) =>
        rw [hrec] at h
        simp only [Option.some.injEq, Prod.mk.injEq] at h
        obtain ⟨h1, h2⟩ := h
        subst h1; subst h2
        have := ih rest2 hrec
        simp only [List.map_cons]
        exact (List.Perm.cons a.device this).trans
          (List.Perm.swap c2.device a.device _)

theorem hasPending_false_not_mem (s : CMState) (d : Nat)
    (h : hasPending s d = false) : d ∉ s.connecting.map PendingCtx.device := by
  intro hmem
  obtain ⟨c, hc, hdev⟩ := List.mem_map.1 hmem
  have : s.connecting.any (fun c => c.device == d) = true :=
    List.any_eq_true.2 ⟨c, hc, by simp [hdev]⟩
  rw [hasPending] at h
  rw [h] at this
  exact absurd this (by simp)

/-- The per-device uniqueness invariant of the negotiation registry. -/
def DevInv (s : CMState) : Prop :=
  (s.connecting.map PendingCtx.device).Nodup

theorem devinv_step (s : CMState) (e : Event) (hf : e.isForceNew = false)
    (h : DevInv s) : DevInv (step s e) := by
  cases e with
  | connect d nm nn fn =>
    simp only [Event.isForceNew] at hf
    subst hf
    simp only [step, stepConnect, Bool.false_eq_true, if_false]
    by_cases hr : hasReady s d
    · simp only [if_pos hr]; exact h
    · simp only [if_neg hr]
      by_cases hnn : nn
      · simp only [if_pos hnn]; exact h
      · simp only [if_neg hnn]
        by_cases hp : hasPending s d
        · simp only [if_pos hp]
          unfold DevInv
          rw [attachCtx_devices]
          exact h
        · simp only [if_neg hp]
          unfold DevInv
          rw [List.map_append]
          rw [List.nodup_append]
          refine ⟨h, by simp, ?_⟩
          intro a ha hb
          simp only [List.map_cons, List.map_nil, List.mem_singleton] at hb
          subst hb
          exact hasPending_false_not_mem s a (by simpa using hp) ha
  | ctxFail d =>
    unfold DevInv at h ⊢
    simp only [step, stepCtxFail]
    exact ((List.filter_sublist _).map PendingCtx.device).nodup h
  | ctxDone d =>
    unfold DevInv at h ⊢
    simp only [step, stepCtxDone]
    match hrec : extractCtx s.connecting d with
    | none => exact h
    | some (c, rest) =>
      have hperm := extractCtx_devices_perm s.connecting d c rest hrec
      have := hperm.nodup_iff.1 h
      exact (List.nodup_cons.1 this).2
  | chanAccept d nm =>
    unfold DevInv at h ⊢
    simp only [step, stepChanDecision]
    match hrc : resolveChan s.ready d nm with
    | (some cb, socks) => exact h
    | (none, socks) => exact h
  | chanReject d nm =>
    unfold DevInv at h ⊢
    simp only [step, stepChanDecision]
    match hrc : resolveChan s.ready d nm with
    | (some cb, socks) => exact h
    | (none, socks) => exact h
  | close d =>
    unfold DevInv at h ⊢
    simp only [step, stepClose]
    exact ((List.filter_sublist _).map PendingCtx.device).nodup h
  | shutdown =>
    unfold DevInv
    simp [step, stepShutdown]

theorem devinv_run (s : CMState) (evs : List Event)
    (hf : ∀ e ∈ evs, e.isForceNew = false) (h : DevInv s) : DevInv (run s evs) := by
  induction evs generalizing s with
  | nil => exact h
  | cons e es ih =>
    exact ih (step s e) (fun e2 he2 => hf e2 (List.mem_cons_of_mem e he2))
      (devinv_step s e (hf e (List.mem_cons_self e es)) h)

theorem attachCtx_isConnecting (l : List PendingCtx) (d : Nat) (r : ChanReq)
    (h : l.any (fun c => c.device == d) = true) :
    (attachCtx l d r).any
      (fun c => c.device == d && c.reqs.any (fun q => q.name == r.name)) = true := by
  induction l with
  | nil => simp at h
  | cons c cs ih =>
    by_cases hc : c.device = d
    · simp [attachCtx, hc]
    · have h2 : cs.any (fun c => c.device == d) = true := by
        simp [List.any_cons, hc] at h
        simpa using h
      simp [attachCtx, hc, ih h2]


/-! ## Claim theorems -/

theorem filterMap_parse_print (cands : List IceCandidateM)
    (h : ∀ c ∈ cands, ValidCand c) :
    (cands.map printCand).filterMap getCandidateFromSDP = cands := by
  induction cands with
  | nil => rfl
  | cons c cs ih =>
    simp only [List.map_cons, List.filterMap_cons,
      getCandidateFromSDP_printCand c (h c (List.mem_cons_self c cs))]
    rw [ih (fun x hx => h x (List.mem_cons_of_mem c hx))]

instance (t : Bytes) : Decidable (ValidTok t) := by
  unfold ValidTok; infer_instance

instance (c : IceCandidateM) : Decidable (ValidCand c) := by
  unfold ValidCand; infer_instance

/-- C1: every callback passed to connectDevice fires exactly once: never
twice in any run, and exactly once for every allocated callback once the
manager shuts down (failures, rejections and shutdown all fire the callback
with a null handle; channel acceptance fires it with a live handle). -/
theorem connect_callback_exactly_once :
    ∀ evs : List Event,
      (firedCbs (run CMState.init evs)).Nodup ∧
      ∀ c, c < (run CMState.init (evs ++ [Event.shutdown])).nextCb →
        (firedCbs (run CMState.init (evs ++ [Event.shutdown]))).count c = 1 := by
  intro evs
  constructor
  · have hinv := inv_run CMState.init evs inv_init
    rw [List.nodup_iff_count_le_one]
    intro a
    have hx := hinv a
    split_ifs at hx <;> omega
  · intro c hc
    rw [run_append_single] at hc ⊢
    have hinv := inv_step _ Event.shutdown (inv_run CMState.init evs inv_init)
    have hx := hinv c
    simp only [step] at hx hc ⊢
    rw [outCbs_stepShutdown] at hx
    simp only [List.count_nil] at hx
    split_ifs at hx <;> omega

theorem connect_callback_exactly_once_witness :
    0 < (run CMState.init ([Event.connect 5 "git" false false] ++
      [Event.shutdown])).nextCb ∧
    (firedCbs (run CMState.init ([Event.connect 5 "git" false false] ++
      [Event.shutdown]))).count 0 = 1 :=
  ⟨by decide,
   (connect_callback_exactly_once [Event.connect 5 "git" false false]).2 0
     (by decide)⟩


/-- C2: when both devices call connectDevice toward each other while each
holds a local outbound pending offer, the tie-break is deterministic: the
side with the numerically lower DeviceId keeps its offer and becomes the
initiator, and after settling exactly one MultiplexedSocket exists in each
of the two registries. -/
theorem simultaneous_connect_tiebreak :
    ∀ a b : Nat, a ≠ b →
      (settleSimultaneous a b).1.sockets = [b] ∧
      (settleSimultaneous a b).2.1.sockets = [a] ∧
      (settleSimultaneous a b).2.2 = min a b := by
  intro a b hab
  rcases Nat.lt_or_ge a b with h | h
  · have hba : ¬b < a := Nat.lt_asymm h
    simp [settleSimultaneous, receiveOffer, h, hba, Nat.min_eq_left (Nat.le_of_lt h)]
  · have hba : b < a := Nat.lt_of_le_of_ne h (fun he => hab he.symm)
    have hna : ¬a < b := Nat.lt_asymm hba
    simp [settleSimultaneous, receiveOffer, hba, hna,
      Nat.min_eq_right (Nat.le_of_lt hba)]

theorem simultaneous_connect_tiebreak_witness :
    (3 : Nat) ≠ 9 ∧ (settleSimultaneous 3 9).1.sockets = [9] ∧
      (settleSimultaneous 3 9).2.2 = 3 :=
  ⟨by decide, (simultaneous_connect_tiebreak 3 9 (by decide)).1,
    (simultaneous_connect_tiebreak 3 9 (by decide)).2.2⟩


/-- C3: in any run containing no connectDevice call with forceNewSocket
set, the negotiation registry holds at most one pending context per
DeviceId; and a further connectDevice call for a device that already has a
pending context (and no ready socket) creates no new context but attaches
the request, after which isConnecting reports the channel name. -/
theorem at_most_one_negotiation_per_device :
    (∀ evs : List Event, (∀ e ∈ evs, e.isForceNew = false) →
      ((run CMState.init evs).connecting.map PendingCtx.device).Nodup) ∧
    (∀ (s : CMState) (d : Nat) (nm : String),
      hasPending s d = true → hasReady s d = false →
      (stepConnect s d nm false false).connecting.map PendingCtx.device =
        s.connecting.map PendingCtx.device ∧
      (stepConnect s d nm false false).connecting.length =
        s.connecting.length ∧
      isConnecting (stepConnect s d nm false false) d nm = true) := by
  constructor
  · intro evs hf
    exact devinv_run CMState.init evs hf (by simp [DevInv, CMState.init])
  · intro s d nm hp hr
    have hbranch : stepConnect s d nm false false =
        ⟨s.nextCb + 1, attachCtx s.connecting d ⟨nm, s.nextCb⟩, s.ready,
          s.fired⟩ := by
      simp [stepConnect, hp, hr]
    rw [hbranch]
    refine ⟨attachCtx_devices _ _ _, attachCtx_length _ _ _, ?_⟩
    have := attachCtx_isConnecting s.connecting d ⟨nm, s.nextCb⟩ hp
    simp [isConnecting]
    exact Or.inl (by simpa using this)

theorem at_most_one_negotiation_per_device_witness :
    (∀ e ∈ [Event.connect 1 "a" false false, Event.connect 1 "b" false false],
      e.isForceNew = false) ∧
    ((run CMState.init [Event.connect 1 "a" false false,
        Event.connect 1 "b" false false]).connecting.map
      PendingCtx.device).Nodup ∧
    hasPending ⟨1, [⟨7, [⟨"x", 0⟩]⟩], [], []⟩ 7 = true ∧
    isConnecting (stepConnect ⟨1, [⟨7, [⟨"x", 0⟩]⟩], [], []⟩ 7 "y" false false)
      7 "y" = true :=
  ⟨by decide,
   (at_most_one_negotiation_per_device).1
     [Event.connect 1 "a" false false, Event.connect 1 "b" false false]
     (by decide),
   by decide,
   ((at_most_one_negotiation_per_device).2 ⟨1, [⟨7, [⟨"x", 0⟩]⟩], [], []⟩ 7 "y"
     (by decide) (by decide)).2.2⟩


/-- C4 counterexample: the serialized SDP blob of a concrete value is not a
self-describing map: it carries no key names, its first byte is the
fixarray-of-3 header 0x93 (147), and decoding it as a msgpack map fails. -/
theorem sdp_blob_is_not_a_map :
    mapKeys (SDP.packed ⟨[117], [112], [[99]]⟩) = none ∧
    decMapHeader (SDP.encode ⟨[117], [112], [[99]]⟩) = none ∧
    (SDP.encode ⟨[117], [112], [[99]]⟩).head? = some 147 := by
  refine ⟨rfl, by decide, by decide⟩

/-- C4 amended: the serialized ICE SDP blob is a self-describing binary
array of exactly the three fields ufrag, pwd, candidates in that fixed
positional order, and deserializing the output of serializing an SDP value
recovers the three fields by position. -/
theorem sdp_blob_positional_array :
    ∀ s : SDP, s.ufrag.length < 4294967296 → s.pwd.length < 4294967296 →
      s.candidates.length < 4294967296 →
      (∀ c ∈ s.candidates, c.length < 4294967296) →
      s.packed = MsgVal.arr [.str s.ufrag, .str s.pwd,
        .arr (s.candidates.map .str)] ∧
      decodeSDP (SDP.encode s) = some s :=
  fun s hu hp hn hc => ⟨rfl, decodeSDP_encode s hu hp hn hc⟩

theorem sdp_blob_positional_array_witness :
    decodeSDP (SDP.encode ⟨[117], [112, 113], [[99], [100]]⟩) =
      some ⟨[117], [112, 113], [[99], [100]]⟩ :=
  (sdp_blob_positional_array ⟨[117], [112, 113], [[99], [100]]⟩
    (by decide) (by decide) (by decide) (by decide)).2

/-- C5: the DHT rendezvous key is the byte string peer: followed by the
20-byte infohash of the recipient device public key, and the carried
PeerConnectionRequest serializes as a self-describing msgpack map whose
field names are exactly id, ice_msg, isAnswer and connType. -/
theorem dht_wire_contract :
    ∀ (h : Bytes) (p : PeerConnectionRequest), h.length = 20 →
      dhtListenKey h = peerKeyBase ++ h ∧
      (dhtListenKey h).length = 25 ∧
      mapKeys p.packed = some [idKey, iceMsgKey, isAnswerKey, connTypeKey] ∧
      p.encode = 132 :: (encStr idKey ++ encUint p.id ++ encStr iceMsgKey ++
        encStr p.ice_msg ++ encStr isAnswerKey ++ encBool p.isAnswer ++
        encStr connTypeKey ++ encStr p.connType) := by
  intro h p hlen
  refine ⟨rfl, by simp [dhtListenKey, peerKeyBase, hlen], rfl, ?_⟩
  simp [PeerConnectionRequest.encode, PeerConnectionRequest.packed, encodeVal,
    encodeMap, mapHeader, List.append_assoc]

theorem dht_wire_contract_witness :
    dhtListenKey [0, 1, 2, 3, 4, 5, 6, 7, 8, 9, 10, 11, 12, 13, 14, 15, 16,
        17, 18, 19] =
      peerKeyBase ++ [0, 1, 2, 3, 4, 5, 6, 7, 8, 9, 10, 11, 12, 13, 14, 15,
        16, 17, 18, 19] ∧
    mapKeys (PeerConnectionRequest.packed ⟨1, [2], true, []⟩) =
      some [idKey, iceMsgKey, isAnswerKey, connTypeKey] :=
  ⟨(dht_wire_contract [0, 1, 2, 3, 4, 5, 6, 7, 8, 9, 10, 11, 12, 13, 14, 15,
      16, 17, 18, 19] ⟨1, [2], true, []⟩ (by decide)).1,
   (dht_wire_contract [0, 1, 2, 3, 4, 5, 6, 7, 8, 9, 10, 11, 12, 13, 14, 15,
      16, 17, 18, 19] ⟨1, [2], true, []⟩ (by decide)).2.2.1⟩




/-- C6: round-trip of ICE candidate serialization: for every valid
candidate list with its ufrag and pwd, parsing the serialized SDP blob with
parseIceCandidates returns exactly the original candidates, ufrag and
pwd. -/
theorem parse_serialize_candidates_roundtrip :
    ∀ (cands : List IceCandidateM) (u p : Bytes),
      (∀ c ∈ cands, ValidCand c) →
      (∀ c ∈ cands, (printCand c).length < 4294967296) →
      u.length < 4294967296 → p.length < 4294967296 →
      cands.length < 4294967296 →
      parseIceCandidates (SDP.encode ⟨u, p, cands.map printCand⟩) =
        some ⟨cands, u, p⟩ := by
  intro cands u p hv hl hu hp hn
  unfold parseIceCandidates
  rw [decodeSDP_encode ⟨u, p, cands.map printCand⟩ hu hp (by simpa using hn)
    (by intro c hc
        obtain ⟨c2, hc2, hpr⟩ := List.mem_map.1 hc
        exact hpr ▸ hl c2 hc2)]
  simp only []
  rw [filterMap_parse_print cands hv]

theorem parse_serialize_candidates_roundtrip_witness :
    parseIceCandidates (SDP.encode ⟨[117], [112],
      [printCand ⟨[72, 49], 1, [85, 68, 80], 2130706431,
        [49, 57, 50, 46, 49, 54, 56, 46, 49, 46, 50], 5000,
        [104, 111, 115, 116]⟩]⟩) =
    some ⟨[⟨[72, 49], 1, [85, 68, 80], 2130706431,
      [49, 57, 50, 46, 49, 54, 56, 46, 49, 46, 50], 5000,
      [104, 111, 115, 116]⟩], [117], [112]⟩ :=
  parse_serialize_candidates_roundtrip
    [⟨[72, 49], 1, [85, 68, 80], 2130706431,
      [49, 57, 50, 46, 49, 54, 56, 46, 49, 46, 50], 5000,
      [104, 111, 115, 116]⟩] [117] [112]
    (by decide) (by decide) (by decide) (by decide) (by decide)

/-- C7: a connectDevice call with noNewSocket set, when no established
socket exists for the device, fails immediately: the callback fires with a
null handle and the registry (pending contexts and ready sockets) is
unchanged. -/
theorem noNewSocket_fails_immediately :
    ∀ (s : CMState) (d : Nat) (nm : String), hasReady s d = false →
      stepConnect s d nm true false =
        ⟨s.nextCb + 1, s.connecting, s.ready,
          s.fired ++ [(s.nextCb, CbRes.nullHandle)]⟩ := by
  intro s d nm h
  simp [stepConnect, h]

theorem noNewSocket_fails_immediately_witness :
    hasReady CMState.init 5 = false ∧
    stepConnect CMState.init 5 "x" true false =
      ⟨1, [], [], [(0, CbRes.nullHandle)]⟩ :=
  ⟨by decide, noNewSocket_fails_immediately CMState.init 5 "x" (by decide)⟩

/-- C8: isConnecting is true exactly when a pending channel-open with that
name exists in the registry for the device — queued on a negotiation
context or pending on a ready socket — and a request merely issued by the
application (still queued for the asynchronous worker) leaves its value
unchanged. -/
theorem isConnecting_iff_pending_name :
    ∀ (a : AppState) (d : Nat) (n : String),
      (a.isConnecting d n = true ↔
        ((∃ c ∈ a.cm.connecting, c.device = d ∧ ∃ r ∈ c.reqs, r.name = n) ∨
         (∃ k ∈ a.cm.ready, k.device = d ∧ ∃ r ∈ k.pending, r.name = n))) ∧
      ∀ q : IssuedReq, (issueRequest a q).isConnecting d n =
        a.isConnecting d n := by
  intro a d n
  constructor
  · simp [AppState.isConnecting, isConnecting, List.any_eq_true]
  · intro q
    rfl

/-- C9: the default local data address of an ICE transport is, in every
state, exactly the local address of component 1. -/
theorem default_local_address_is_component_one :
    ∀ t : IceTransport, t.getDefaultLocalAddress = t.getLocalAddress 1 :=
  fun _ => rfl

/-- C10: a default-constructed PeerConnectionRequest is a recognizably
uninitialized offer: isAnswer is false, id is the invalid identifier, the
ice_msg and connType strings are empty, and no request with a valid id
equals it. -/
theorem default_request_uninitialized :
    defaultRequest.id = INVALID_ID ∧ defaultRequest.ice_msg = [] ∧
    defaultRequest.isAnswer = false ∧ defaultRequest.connType = [] ∧
    ∀ p : PeerConnectionRequest, p.id ≠ INVALID_ID → p ≠ defaultRequest := by
  refine ⟨rfl, rfl, rfl, rfl, ?_⟩
  intro p hp hcontra
  rw [hcontra] at hp
  exact hp rfl

theorem default_request_uninitialized_witness :
    ({ id := 7 } : PeerConnectionRequest).id ≠ INVALID_ID ∧
    ({ id := 7 } : PeerConnectionRequest) ≠ defaultRequest :=
  ⟨by decide, default_request_uninitialized.2.2.2.2 _ (by decide)⟩



end Dhtnet
